import Mathlib

/-!
Shallow embedding of the peer-discovery and session-membership layer of
`tss-libp2p` (files `node/runtime/src/peerset.rs` and
`node/network/src/discovery.rs`), together with theorems settling the
frozen claims about it.

A peer identity is modelled by its canonical byte encoding (`PeerId`);
machine-integer casts in the source (`as u8`, `as u16`) become explicit
`% 256` / `% 65536` on `Nat`.
-/

/-- A libp2p peer identity, modelled by its canonical byte encoding
(`PeerId::to_bytes` in the source). -/
structure PeerId where
  bytes : List Nat
deriving DecidableEq, Repr

def PeerId.to_bytes (p : PeerId) : List Nat := p.bytes

/-- Lexicographic comparison of byte strings: the order used by
`sorted_by_key(|p| p.to_bytes())` in the source. -/
def bytesLe : List Nat → List Nat → Bool
  | [], _ => true
  | _ :: _, [] => false
  | a :: as, b :: bs => if a < b then true else if b < a then false else bytesLe as bs

/-- The ordering on peer identities induced by their byte encodings. -/
def peerLe (p q : PeerId) : Prop := bytesLe p.to_bytes q.to_bytes = true

instance : DecidableRel peerLe :=
  fun p q => inferInstanceAs (Decidable (bytesLe p.to_bytes q.to_bytes = true))

theorem bytesLe_total : ∀ a b : List Nat, bytesLe a b = true ∨ bytesLe b a = true := by
  intro a
  induction a with
  | nil => intro b; left; rfl
  | cons x xs ih =>
    intro b
    cases b with
    | nil => right; rfl
    | cons y ys =>
      simp only [bytesLe]
      rcases Nat.lt_trichotomy x y with h | h | h
      · left; simp [h]
      · subst h
        simp only [Nat.lt_irrefl, if_false]
        exact ih ys
      · right; simp [h]

theorem bytesLe_trans :
    ∀ a b c : List Nat, bytesLe a b = true → bytesLe b c = true → bytesLe a c = true := by
  intro a
  induction a with
  | nil => intro b c _ _; rfl
  | cons x xs ih =>
    intro b c hab hbc
    cases b with
    | nil => simp [bytesLe] at hab
    | cons y ys =>
      cases c with
      | nil => simp [bytesLe] at hbc
      | cons z zs =>
        simp only [bytesLe] at hab hbc ⊢
        by_cases hxy : x < y
        · by_cases hyz : y < z
          · simp [Nat.lt_trans hxy hyz]
          · by_cases hzy : z < y
            · simp [hyz, hzy] at hbc
            · have : y = z := Nat.le_antisymm (Nat.le_of_not_lt hzy) (Nat.le_of_not_lt hyz)
              subst this
              simp [hxy]
        · by_cases hyx : y < x
          · simp [hxy, hyx] at hab
          · have hxyeq : x = y := Nat.le_antisymm (Nat.le_of_not_lt hyx) (Nat.le_of_not_lt hxy)
            subst hxyeq
            simp only [Nat.lt_irrefl, if_false] at hab ⊢
            by_cases hyz : x < z
            · simp [hyz]
            · by_cases hzy : z < x
              · simp [hyz, hzy] at hbc
              · simp only [hyz, hzy, if_false] at hbc ⊢
                exact ih ys zs hab hbc

theorem bytesLe_antisymm :
    ∀ a b : List Nat, bytesLe a b = true → bytesLe b a = true → a = b := by
  intro a
  induction a with
  | nil =>
    intro b _ hba
    cases b with
    | nil => rfl
    | cons y ys => simp [bytesLe] at hba
  | cons x xs ih =>
    intro b hab hba
    cases b with
    | nil => simp [bytesLe] at hab
    | cons y ys =>
      simp only [bytesLe] at hab hba
      by_cases hxy : x < y
      · simp [Nat.lt_asymm hxy, hxy] at hba
      · by_cases hyx : y < x
        · simp [hxy, hyx] at hab
        · have hxyeq : x = y := Nat.le_antisymm (Nat.le_of_not_lt hyx) (Nat.le_of_not_lt hxy)
          subst hxyeq
          simp only [Nat.lt_irrefl, if_false] at hab hba
          rw [ih ys hab hba]

instance : IsTotal PeerId peerLe := ⟨fun p q => bytesLe_total p.to_bytes q.to_bytes⟩

instance : IsTrans PeerId peerLe :=
  ⟨fun p q r h1 h2 => bytesLe_trans p.to_bytes q.to_bytes r.to_bytes h1 h2⟩

instance : IsAntisymm PeerId peerLe := by
  refine ⟨fun p q h1 h2 => ?_⟩
  cases p with
  | mk pb =>
    cases q with
    | mk qb =>
      have := bytesLe_antisymm pb qb h1 h2
      simp [this]

/-- The sort applied by `sorted_by_key(|p| p.to_bytes())` in the source:
a stable sort ascending by canonical byte encoding. -/
def sortPeers (l : List PeerId) : List PeerId := List.insertionSort peerLe l

/-- `Peerset` from `node/runtime/src/peerset.rs`.  The `to_runtime` channel
is not part of the data model (it is not serialized and does not take part
in equality); the cache protocol is modelled by passing the cache reply
explicitly to `recover_from_cache`. -/
structure Peerset where
  local_peer_id : PeerId
  session_peers : List PeerId
  parties_indexes : List Nat
deriving DecidableEq, Repr

namespace Peerset

/-- `Peerset::new`: sort the incoming identities by their byte encoding and
assign `parties_indexes = 0..n`. -/
def new (peers : List PeerId) (local_peer_id : PeerId) : Peerset :=
  let sorted := sortPeers peers
  { local_peer_id := local_peer_id
    parties_indexes := List.range sorted.length
    session_peers := sorted }

/-- `Peerset::index_of`: linear search by identity; the found position is
cast to `u16` in the source, hence the `% 65536`. -/
def index_of (p : Peerset) (peer_id : PeerId) : Option Nat :=
  (p.session_peers.findIdx? (fun elem => elem = peer_id)).map (fun i => i % 65536)

/-- `Peerset::size` / `Peerset::len`. -/
def size (p : Peerset) : Nat := p.session_peers.length

/-- The record stream written by `Peerset::to_bytes`: for each participant
(in `session_peers` order, paired with its entry of `parties_indexes`), the
38-byte identity encoding followed by one index byte (`as u8`, i.e. `% 256`). -/
def encodeRecords : List (PeerId × Nat) → List Nat
  | [] => []
  | (p, i) :: rest => p.to_bytes ++ (i % 256 :: encodeRecords rest)

/-- `Peerset::to_bytes`.  The source walks `session_peers` by position and
reads `parties_indexes[i]`, which is the zip of the two sequences whenever
they have equal length (the source panics when `parties_indexes` is
shorter). -/
def to_bytes (p : Peerset) : List Nat :=
  encodeRecords (p.session_peers.zip p.parties_indexes)

end Peerset

/-- The decode loop of `Peerset::from_bytes`: repeatedly read a 38-byte
identity record; a read yielding fewer than 38 bytes ends the loop.  After
each full record one index byte is read; at end of input that read returns
0 bytes and leaves the zero-initialised buffer, so the pushed index is 0. -/
def decodeRecords (bytes : List Nat) : List (PeerId × Nat) :=
  if _h : 38 ≤ bytes.length then
    let p : PeerId := ⟨bytes.take 38⟩
    let rest := bytes.drop 38
    if hr : rest = [] then [(p, 0)]
    else (p, rest.head hr) :: decodeRecords rest.tail
  else []
termination_by bytes.length
decreasing_by
  simp only [List.length_tail, List.length_drop]
  omega

namespace Peerset

/-- `Peerset::from_bytes`: decode the record stream, re-sort the decoded
identities, and keep the decoded index bytes in record order. -/
def from_bytes (bytes : List Nat) (local_peer_id : PeerId) : Peerset :=
  let recs := decodeRecords bytes
  { local_peer_id := local_peer_id
    session_peers := sortPeers (recs.map Prod.fst)
    parties_indexes := recs.map Prod.snd }

/-- The loop body of `Peerset::recover_from_cache`: walk the current
session's identities in sorted order; identities found in the cached
Peerset contribute the cached index value, identities not found are
skipped (with a warning in the source). -/
def recoverIndexes (session_peers : List PeerId) (cache : Peerset) : List Nat :=
  (sortPeers session_peers).filterMap
    (fun peer_id => (cache.index_of peer_id).map
      (fun i => cache.parties_indexes.getD i 0))

/-- `Peerset::recover_from_cache`.  The exchange with the cache actor is
modelled by its outcome `reply`; an `Err` reply is propagated by `?` before
any field of `self` is written, an `Ok` reply replaces `parties_indexes`.
(The reply channel being dropped — the actor gone — panics in the source
and is outside this model.) -/
def recover_from_cache (p : Peerset) (reply : Except String Peerset) :
    Except String Unit × Peerset :=
  match reply with
  | .error e => (.error e, p)
  | .ok cache => (.ok (), { p with parties_indexes := recoverIndexes p.session_peers cache })

end Peerset

/-- A 38-byte identity encoding whose last byte is `b`, mirroring the shape
of a real libp2p identity multihash (identity code, length, digest). -/
def mkPid (b : Nat) : PeerId := ⟨List.replicate 37 0 ++ [b]⟩

def pidA : PeerId := mkPid 1
def pidB : PeerId := mkPid 2
def pidC : PeerId := mkPid 3
def pidD : PeerId := mkPid 4

/-! ## Discovery engine (`node/network/src/discovery.rs`) -/

/-- A multiaddress, opaque to the discovery engine. -/
abbrev Multiaddr := Nat

/-- `DiscoveryOut`: events generated by the discovery behaviour. -/
inductive DiscoveryOut where
  | Connected (peer : PeerId)
  | Disconnected (peer : PeerId)
deriving DecidableEq, Repr

/-- The `NetworkBehaviourAction` variants the discovery behaviour can
return from `poll` (payloads reduced to what identifies the action). -/
inductive NBAction where
  | GenerateEvent (ev : DiscoveryOut)
  | DialAddress (address : Multiaddr)
  | DialPeer (peer : PeerId)
  | NotifyHandler (peer : PeerId)
  | ReportObservedAddr (address : Multiaddr)
  | CloseConnection (peer : PeerId)
deriving DecidableEq, Repr

/-- `KademliaEvent` variants as the discovery poll loop distinguishes them:
the three routing notifications that are absorbed silently, and all
others, which are only logged. -/
inductive KadEvent where
  | RoutingUpdated
  | RoutablePeer
  | PendingRoutablePeer
  | OtherEvent
deriving DecidableEq, Repr

/-- One item the Kademlia sub-engine's own `poll` would yield. -/
inductive KadPollItem where
  | GenerateEvent (ev : KadEvent)
  | DialAddress (address : Multiaddr)
  | DialPeer (peer : PeerId)
  | NotifyHandler (peer : PeerId)
  | ReportObservedAddr (address : Multiaddr)
  | CloseConnection (peer : PeerId)
deriving DecidableEq, Repr

/-- `MdnsEvent` as the discovery poll loop distinguishes it. -/
inductive MdnsEvent where
  | Discovered (peers : List (PeerId × Multiaddr))
  | Expired
deriving DecidableEq, Repr

/-- One item the mDNS sub-engine's own `poll` would yield. -/
inductive MdnsPollItem where
  | GenerateEvent (ev : MdnsEvent)
  | DialAddress (address : Multiaddr)
  | DialPeer (peer : PeerId)
  | NotifyHandler (peer : PeerId)
  | ReportObservedAddr (address : Multiaddr)
  | CloseConnection (peer : PeerId)
deriving DecidableEq, Repr

instance {ε α : Type} [DecidableEq ε] [DecidableEq α] : DecidableEq (Except ε α) := fun a b =>
  match a, b with
  | .ok x, .ok y =>
    if h : x = y then .isTrue (by rw [h]) else .isFalse (by intro he; cases he; exact h rfl)
  | .error x, .error y =>
    if h : x = y then .isTrue (by rw [h]) else .isFalse (by intro he; cases he; exact h rfl)
  | .ok _, .error _ => .isFalse (by intro he; cases he)
  | .error _, .ok _ => .isFalse (by intro he; cases he)

/-- The Kademlia sub-engine, reduced to what the discovery engine
observes of it: its address book (fed by `add_address`), the stream of
items its `poll` will yield, and the outcome its `bootstrap` call
returns (already `map_err`-ed to a string). -/
structure KadState where
  book : List (PeerId × Multiaddr)
  pollQueue : List KadPollItem
  bootstrapResult : Except String Nat
deriving DecidableEq, Repr

/-- The mDNS sub-engine: its address book and pending poll items. -/
structure MdnsState where
  book : List (PeerId × Multiaddr)
  pollQueue : List MdnsPollItem
deriving DecidableEq, Repr

/-- All addresses an address book records for `peer_id`, in book order. -/
def addressBookLookup (book : List (PeerId × Multiaddr)) (peer_id : PeerId) :
    List Multiaddr :=
  book.filterMap (fun pa => if pa.1 = peer_id then some pa.2 else none)

/-- `HashSet::insert` on the model's list-as-set. -/
def hsetInsert (s : List PeerId) (p : PeerId) : List PeerId :=
  if p ∈ s then s else s ++ [p]

/-- `HashMap::insert`: replace the value at an existing key, else append. -/
def hmapInsert (m : List (PeerId × List Multiaddr)) (k : PeerId) (v : List Multiaddr) :
    List (PeerId × List Multiaddr) :=
  match m with
  | [] => [(k, v)]
  | (k', v') :: rest => if k' = k then (k, v) :: rest else (k', v') :: hmapInsert rest k v

/-- The modulus of `u64` arithmetic. -/
def u64Size : Nat := 2 ^ 64

/-- `DiscoveryBehaviour` state.  `Toggle<…>` sub-engines become `Option`;
`u64` connection counting is explicit arithmetic modulo `2^64`. -/
structure DiscoveryBehaviour where
  user_defined : List (PeerId × Multiaddr)
  kademlia : Option KadState
  mdns : Option MdnsState
  pending_events : List DiscoveryOut
  num_connections : Nat
  peers : List PeerId
  peer_addresses : List (PeerId × List Multiaddr)
deriving DecidableEq, Repr

namespace DiscoveryBehaviour

/-- `DiscoveryBehaviour::new`: collect the user-defined peers; when
Kademlia is enabled, seed its address book with every user-defined pair
and insert each user-defined peer into `peers` (and call `bootstrap`,
whose failure is only logged); mDNS starts empty when enabled. -/
def new (user_defined : List (PeerId × Multiaddr)) (kadEnabled mdnsEnabled : Bool)
    (kadBootstrapResult : Except String Nat) : DiscoveryBehaviour :=
  { user_defined := user_defined
    kademlia :=
      if kadEnabled then
        some { book := user_defined, pollQueue := [], bootstrapResult := kadBootstrapResult }
      else none
    mdns := if mdnsEnabled then some { book := [], pollQueue := [] } else none
    pending_events := []
    num_connections := 0
    peers :=
      if kadEnabled then (user_defined.map Prod.fst).foldl hsetInsert [] else []
    peer_addresses := [] }

/-- `DiscoveryBehaviour::addresses_of_peer`: user-defined addresses of the
peer in list order, then the Kademlia book's, then the mDNS book's;
a disabled (`Toggle`d off) sub-engine contributes nothing. -/
def addresses_of_peer (d : DiscoveryBehaviour) (peer_id : PeerId) : List Multiaddr :=
  (addressBookLookup d.user_defined peer_id)
    ++ ((d.kademlia.map (fun k => addressBookLookup k.book peer_id)).getD [])
    ++ ((d.mdns.map (fun m => addressBookLookup m.book peer_id)).getD [])

/-- `inject_connected`: record the peer's current addresses, add it to the
connected set, and enqueue a `Connected` event.  (The callback is also
forwarded to the Kademlia sub-engine, whose internal reaction is outside
this model.) -/
def inject_connected (d : DiscoveryBehaviour) (peer_id : PeerId) : DiscoveryBehaviour :=
  { d with
    peer_addresses := hmapInsert d.peer_addresses peer_id (d.addresses_of_peer peer_id)
    peers := hsetInsert d.peers peer_id
    pending_events := d.pending_events ++ [DiscoveryOut.Connected peer_id] }

/-- `inject_disconnected`: enqueue a `Disconnected` event (and forward to
Kademlia); no other field is touched. -/
def inject_disconnected (d : DiscoveryBehaviour) (peer_id : PeerId) : DiscoveryBehaviour :=
  { d with pending_events := d.pending_events ++ [DiscoveryOut.Disconnected peer_id] }

/-- `inject_connection_established`: `num_connections += 1` (u64), forward
to Kademlia. -/
def inject_connection_established (d : DiscoveryBehaviour) : DiscoveryBehaviour :=
  { d with num_connections := (d.num_connections + 1) % u64Size }

/-- `inject_connection_closed`: `num_connections -= 1` (u64 wrapping),
forward to Kademlia. -/
def inject_connection_closed (d : DiscoveryBehaviour) : DiscoveryBehaviour :=
  { d with num_connections := (d.num_connections + (u64Size - 1)) % u64Size }

/-- `DiscoveryBehaviour::bootstrap`: delegate to the Kademlia sub-engine
when present (its failure mapped to a string), else report that Kademlia
is not activated. -/
def bootstrap (d : DiscoveryBehaviour) : Except String Nat :=
  match d.kademlia with
  | some active_kad => active_kad.bootstrapResult
  | none => .error "Kademlia is not activated"

end DiscoveryBehaviour

/-- The `while let Poll::Ready(ev) = self.kademlia.poll(…)` loop of the
discovery `poll`: Kademlia events are absorbed (routing notifications
silently, others logged), every other action is returned immediately,
interrupting the drain. -/
def pollKadQueue : List KadPollItem → Option NBAction × List KadPollItem
  | [] => (none, [])
  | item :: rest =>
    match item with
    | .GenerateEvent _ => pollKadQueue rest
    | .DialAddress a => (some (.DialAddress a), rest)
    | .DialPeer p => (some (.DialPeer p), rest)
    | .NotifyHandler p => (some (.NotifyHandler p), rest)
    | .ReportObservedAddr a => (some (.ReportObservedAddr a), rest)
    | .CloseConnection p => (some (.CloseConnection p), rest)

/-- `MdnsEvent::Discovered` side effect: `kad.add_address` for every
reported (identity, address) pair, when Kademlia is present. -/
def addAllToKad (kad : Option KadState) (l : List (PeerId × Multiaddr)) : Option KadState :=
  kad.map (fun k => { k with book := k.book ++ l })

/-- The `while let Poll::Ready(ev) = self.mdns.poll(…)` loop: `Discovered`
feeds the Kademlia address book (no event surfaced), `Expired` and all
dial/notify actions are dropped, and only `ReportObservedAddr` and
`CloseConnection` are forwarded upward, interrupting the drain. -/
def pollMdnsQueue (kad : Option KadState) :
    List MdnsPollItem → Option NBAction × List MdnsPollItem × Option KadState
  | [] => (none, [], kad)
  | item :: rest =>
    match item with
    | .GenerateEvent (.Discovered l) => pollMdnsQueue (addAllToKad kad l) rest
    | .GenerateEvent .Expired => pollMdnsQueue kad rest
    | .DialAddress _ => pollMdnsQueue kad rest
    | .DialPeer _ => pollMdnsQueue kad rest
    | .NotifyHandler _ => pollMdnsQueue kad rest
    | .ReportObservedAddr a => (some (.ReportObservedAddr a), rest, kad)
    | .CloseConnection p => (some (.CloseConnection p), rest, kad)

namespace DiscoveryBehaviour

/-- The poll items a `Toggle`d sub-engine yields: none when disabled. -/
def kadQueue (d : DiscoveryBehaviour) : List KadPollItem :=
  (d.kademlia.map KadState.pollQueue).getD []

def mdnsQueue (d : DiscoveryBehaviour) : List MdnsPollItem :=
  (d.mdns.map MdnsState.pollQueue).getD []

def setKadQueue (d : DiscoveryBehaviour) (q : List KadPollItem) : DiscoveryBehaviour :=
  { d with kademlia := d.kademlia.map (fun k => { k with pollQueue := q }) }

def setMdnsQueue (d : DiscoveryBehaviour) (q : List MdnsPollItem) : DiscoveryBehaviour :=
  { d with mdns := d.mdns.map (fun m => { m with pollQueue := q }) }

/-- `DiscoveryBehaviour::poll`: (1) pop a pending event if any; (2) drain
Kademlia, returning its first actionable item; (3) drain mDNS likewise,
absorbing discoveries into the Kademlia book; (4) re-check the pending
queue; otherwise report `Poll::Pending` (`none`). -/
def poll (d : DiscoveryBehaviour) : Option NBAction × DiscoveryBehaviour :=
  match d.pending_events with
  | ev :: restEvents => (some (.GenerateEvent ev), { d with pending_events := restEvents })
  | [] =>
    match pollKadQueue d.kadQueue with
    | (some act, kadRest) => (some act, d.setKadQueue kadRest)
    | (none, kadRest) =>
      let d1 := d.setKadQueue kadRest
      match pollMdnsQueue d1.kademlia d1.mdnsQueue with
      | (some act, mdnsRest, kad') =>
        (some act, { d1.setMdnsQueue mdnsRest with kademlia := kad' })
      | (none, mdnsRest, kad') =>
        let d2 := { d1.setMdnsQueue mdnsRest with kademlia := kad' }
        match d2.pending_events with
        | ev :: restEvents =>
          (some (.GenerateEvent ev), { d2 with pending_events := restEvents })
        | [] => (none, d2)

end DiscoveryBehaviour

/-! ## Helper lemmas -/

theorem filterMap_eq_map_filter {α : Type} (f : α → Option Nat) (l : List α) :
    l.filterMap f =
      (l.filter (fun a => (f a).isSome)).map (fun a => (f a).getD 0) := by
  induction l with
  | nil => simp
  | cons x xs ih =>
    cases hf : f x <;>
      simp [List.filterMap_cons, List.filter_cons, hf, ih]

theorem length_filterMap_of_isSome {α β : Type} (f : α → Option β) :
    ∀ l : List α, (∀ a ∈ l, (f a).isSome) → (l.filterMap f).length = l.length := by
  intro l
  induction l with
  | nil => simp
  | cons x xs ih =>
    intro hall
    have hx : (f x).isSome := hall x (by simp)
    cases hf : f x with
    | none => rw [hf] at hx; simp at hx
    | some b =>
      rw [List.filterMap_cons, hf]
      simp only [List.length_cons]
      rw [ih (fun a ha => hall a (by simp [ha]))]

theorem all_isSome_of_length_filterMap {α β : Type} (f : α → Option β) :
    ∀ l : List α, (l.filterMap f).length = l.length → ∀ a ∈ l, (f a).isSome := by
  intro l
  induction l with
  | nil =>
    intro _ a ha
    simp at ha
  | cons x xs ih =>
    intro hlen a ha
    cases hf : f x with
    | none =>
      exfalso
      rw [List.filterMap_cons, hf] at hlen
      have hle := List.length_filterMap_le f xs
      simp only [List.length_cons] at hlen
      omega
    | some b =>
      rw [List.filterMap_cons, hf] at hlen
      simp only [List.length_cons, Nat.add_right_cancel_iff] at hlen
      rcases List.mem_cons.mp ha with h | h
      · subst h
        simp [hf]
      · exact ih hlen a h

theorem mem_hsetInsert_self (s : List PeerId) (p : PeerId) : p ∈ hsetInsert s p := by
  unfold hsetInsert
  split
  · assumption
  · simp

/-! ## Claims about the session Peerset -/

/-- C1: for every finite collection of peer identities, `Peerset::new`
applied to any two orderings of that collection yields the same
`session_peers`, namely the identities sorted ascending by canonical byte
encoding, and fresh construction assigns `parties_indexes = 0..n`. -/
theorem peerset_new_order_independent (l1 l2 : List PeerId) (loc1 loc2 : PeerId)
    (hperm : l1.Perm l2) :
    (Peerset.new l1 loc1).session_peers = (Peerset.new l2 loc2).session_peers ∧
    List.Sorted peerLe (Peerset.new l1 loc1).session_peers ∧
    (Peerset.new l1 loc1).parties_indexes = List.range l1.length := by
  refine ⟨?_, ?_, ?_⟩
  · exact List.eq_of_perm_of_sorted
      ((List.perm_insertionSort peerLe l1).trans
        (hperm.trans (List.perm_insertionSort peerLe l2).symm))
      (List.sorted_insertionSort peerLe l1) (List.sorted_insertionSort peerLe l2)
  · exact List.sorted_insertionSort peerLe l1
  · simp [Peerset.new, sortPeers]

/-- Witness for C1 at the two orderings of `{pidA, pidB}`. -/
theorem peerset_new_order_independent_witness :
    (Peerset.new [pidB, pidA] pidA).session_peers
        = (Peerset.new [pidA, pidB] pidB).session_peers ∧
    List.Sorted peerLe (Peerset.new [pidB, pidA] pidA).session_peers ∧
    (Peerset.new [pidB, pidA] pidA).parties_indexes = List.range [pidB, pidA].length :=
  peerset_new_order_independent [pidB, pidA] [pidA, pidB] pidA pidB
    (List.Perm.swap pidA pidB [])

/-- C5 counterexample: `Peerset::new` does not deduplicate, so an input
repeating `pidA` yields `session_peers` containing `pidA` twice, and the
identity at position 1 has `index_of` equal to 0, not 1. -/
theorem peerset_new_duplicate_counterexample :
    (Peerset.new [pidA, pidA] pidA).session_peers.count pidA = 2 ∧
    ¬ (Peerset.new [pidA, pidA] pidA).session_peers.Nodup ∧
    (Peerset.new [pidA, pidA] pidA).session_peers.getD 1 pidB = pidA ∧
    (Peerset.new [pidA, pidA] pidA).index_of pidA = some 0 := by
  decide

/-- C5 (amended): provided the input repeats no identity, `session_peers`
contains each identity at most once; `index_of` returns `none` for an
absent identity, and for every position `i` below the `u16` range,
`index_of` of the identity at position `i` returns `some i`. -/
theorem peerset_index_of_spec (l : List PeerId) (loc : PeerId) (hnd : l.Nodup) :
    (Peerset.new l loc).session_peers.Nodup ∧
    (∀ q, q ∉ (Peerset.new l loc).session_peers →
      (Peerset.new l loc).index_of q = none) ∧
    (∀ i (h : i < (Peerset.new l loc).session_peers.length), i < 65536 →
      (Peerset.new l loc).index_of ((Peerset.new l loc).session_peers.get ⟨i, h⟩)
        = some i) := by
  have hnd' : (Peerset.new l loc).session_peers.Nodup :=
    ((List.perm_insertionSort peerLe l).nodup_iff).mpr hnd
  refine ⟨hnd', ?_, ?_⟩
  · intro q hq
    unfold Peerset.index_of
    rw [List.findIdx?_eq_none_iff.mpr ?_]
    · rfl
    · intro x hx
      simp only [decide_eq_false_iff_not]
      intro hxq
      exact hq (hxq ▸ hx)
  · intro i h hi
    unfold Peerset.index_of
    have hfind : (Peerset.new l loc).session_peers.findIdx?
        (fun elem => elem = (Peerset.new l loc).session_peers.get ⟨i, h⟩) = some i := by
      rw [List.findIdx?_eq_some_iff_getElem]
      refine ⟨h, by simp, ?_⟩
      intro j hji
      simp only [decide_eq_true_eq]
      intro heq
      have : (⟨j, Nat.lt_trans hji h⟩ : Fin _) = ⟨i, h⟩ := by
        apply (List.Nodup.get_inj_iff hnd').mp
        simp only [List.get_eq_getElem]
        exact heq
      have := Fin.val_eq_of_eq this
      simp only at this
      omega
    rw [hfind]
    simp [Nat.mod_eq_of_lt hi]

/-- Witness for C5's amended statement at the duplicate-free input
`[pidB, pidA]`. -/
theorem peerset_index_of_spec_witness :
    (Peerset.new [pidB, pidA] pidA).session_peers.Nodup ∧
    (Peerset.new [pidB, pidA] pidA).index_of pidC = none := by
  have h := peerset_index_of_spec [pidB, pidA] pidA (by decide)
  exact ⟨h.1, h.2.1 pidC (by decide)⟩

/-- The cached Peerset of the recovery scenario: identities `{A, B, C}`
with `parties_indexes = [0, 1, 2]`. -/
def cacheABC : Peerset := Peerset.new [pidA, pidB, pidC] pidA

/-- The current session of the recovery scenario: identities `{B, C, D}`. -/
def sessionBCD : Peerset := Peerset.new [pidB, pidC, pidD] pidB

/-- C3: `recover_from_cache` walks the session identities in sorted order;
an identity present in the cached Peerset appends its cached index value,
an absent one contributes nothing; recovering `{B,C,D}` against the cache
`{A,B,C}` with indexes `{0,1,2}` yields exactly the cached values for `B`
and `C`, of length 2. -/
theorem recover_from_cache_semantics :
    (∀ p cache : Peerset,
      (p.recover_from_cache (.ok cache)).2.parties_indexes =
        ((sortPeers p.session_peers).filter
            (fun peer_id => (cache.index_of peer_id).isSome)).map
          (fun peer_id => cache.parties_indexes.getD ((cache.index_of peer_id).getD 0) 0)) ∧
    cacheABC.parties_indexes = [0, 1, 2] ∧
    cacheABC.index_of pidB = some 1 ∧
    cacheABC.index_of pidC = some 2 ∧
    cacheABC.index_of pidD = none ∧
    (sessionBCD.recover_from_cache (.ok cacheABC)).2.parties_indexes
      = [cacheABC.parties_indexes.getD 1 0, cacheABC.parties_indexes.getD 2 0] ∧
    (sessionBCD.recover_from_cache (.ok cacheABC)).2.parties_indexes.length = 2 := by
  refine ⟨?_, by decide, by decide, by decide, by decide, by decide, by decide⟩
  intro p cache
  show Peerset.recoverIndexes p.session_peers cache = _
  unfold Peerset.recoverIndexes
  rw [filterMap_eq_map_filter
    (fun peer_id => (cache.index_of peer_id).map
      (fun i => cache.parties_indexes.getD i 0))]
  have hfilter :
      List.filter
          (fun a => ((cache.index_of a).map
            (fun i => cache.parties_indexes.getD i 0)).isSome)
          (sortPeers p.session_peers)
        = List.filter (fun a => (cache.index_of a).isSome) (sortPeers p.session_peers) :=
    List.filter_congr (fun q _ => by cases cache.index_of q <;> simp)
  rw [hfilter]
  apply List.map_congr_left
  intro q hq
  have hs : (cache.index_of q).isSome := by
    have := (List.mem_filter.mp hq).2
    simpa using this
  cases h : cache.index_of q with
  | none => rw [h] at hs; simp at hs
  | some i => simp [h]

/-- C10: when the cache-service reply carries an error, `recover_from_cache`
propagates that error (via `?`) before any field of the Peerset is written:
the Peerset is returned unchanged. -/
theorem recover_from_cache_error_atomic (p : Peerset) (e : String) :
    (p.recover_from_cache (.error e)).1 = .error e ∧
    (p.recover_from_cache (.error e)).2 = p :=
  ⟨rfl, rfl⟩

/-- C4 counterexample: recovering the session `{B}` against an Ok reply
holding an empty cached Peerset succeeds (`Ok(())`) yet leaves one session
peer with an empty `parties_indexes`, breaking
`len(session_peers) == len(party_indexes)`. -/
theorem peerset_length_invariant_counterexample :
    ((Peerset.new [pidB] pidB).recover_from_cache (.ok (Peerset.new [] pidA))).1
      = .ok () ∧
    ¬ (((Peerset.new [pidB] pidB).recover_from_cache
          (.ok (Peerset.new [] pidA))).2.session_peers.length
        = ((Peerset.new [pidB] pidB).recover_from_cache
          (.ok (Peerset.new [] pidA))).2.parties_indexes.length) := by
  decide

/-- C4 (amended): `len(session_peers) == len(party_indexes)` holds after
fresh construction and after `from_bytes` on any input; after a successful
`recover_from_cache`, `party_indexes` can only shrink
(`len(party_indexes) ≤ len(session_peers)`), with equality exactly when
every session peer is found in the cache. -/
theorem peerset_length_invariant (l : List PeerId) (loc : PeerId) (bytes : List Nat)
    (p cache : Peerset) :
    (Peerset.new l loc).session_peers.length
      = (Peerset.new l loc).parties_indexes.length ∧
    (Peerset.from_bytes bytes loc).session_peers.length
      = (Peerset.from_bytes bytes loc).parties_indexes.length ∧
    ((p.recover_from_cache (.ok cache)).2.parties_indexes.length
      ≤ (p.recover_from_cache (.ok cache)).2.session_peers.length) ∧
    ((p.recover_from_cache (.ok cache)).2.parties_indexes.length
        = (p.recover_from_cache (.ok cache)).2.session_peers.length
      ↔ ∀ q ∈ p.session_peers, (cache.index_of q).isSome) := by
  refine ⟨?_, ?_, ?_, ?_, ?_⟩
  · simp [Peerset.new, sortPeers]
  · simp [Peerset.from_bytes, sortPeers]
  · show (Peerset.recoverIndexes p.session_peers cache).length ≤ p.session_peers.length
    unfold Peerset.recoverIndexes
    calc ((sortPeers p.session_peers).filterMap _).length
        ≤ (sortPeers p.session_peers).length := List.length_filterMap_le _ _
      _ = p.session_peers.length := by simp [sortPeers]
  · intro heq q hq
    have heq' : ((sortPeers p.session_peers).filterMap
        (fun peer_id => (cache.index_of peer_id).map
          (fun i => cache.parties_indexes.getD i 0))).length
        = (sortPeers p.session_peers).length := by
      have h1 : (Peerset.recoverIndexes p.session_peers cache).length
          = p.session_peers.length := heq
      unfold Peerset.recoverIndexes at h1
      rw [h1]
      simp [sortPeers]
    have hq' : q ∈ sortPeers p.session_peers := by
      have := (List.perm_insertionSort peerLe p.session_peers).mem_iff.mpr hq
      exact this
    have hs := all_isSome_of_length_filterMap _ (sortPeers p.session_peers) heq' q hq'
    cases h : cache.index_of q with
    | none => rw [h] at hs; simp at hs
    | some i => simp [h]
  · intro hall
    show (Peerset.recoverIndexes p.session_peers cache).length = p.session_peers.length
    unfold Peerset.recoverIndexes
    rw [length_filterMap_of_isSome]
    · simp [sortPeers]
    · intro q hq
      have hq' : q ∈ p.session_peers := by
        have := (List.perm_insertionSort peerLe p.session_peers).mem_iff.mp hq
        exact this
      have := hall q hq'
      cases h : cache.index_of q with
      | none => rw [h] at this; simp at this
      | some i => simp [h]

/-- Witness for C4's amended statement: fresh construction over `[pidA]`,
and recovery of `{B, C}` against the cache `{A, B, C}`, which contains
every session peer. -/
theorem peerset_length_invariant_witness :
    (Peerset.new [pidA] pidA).session_peers.length
      = (Peerset.new [pidA] pidA).parties_indexes.length ∧
    ((Peerset.new [pidB, pidC] pidB).recover_from_cache
        (.ok cacheABC)).2.parties_indexes.length
      = ((Peerset.new [pidB, pidC] pidB).recover_from_cache
        (.ok cacheABC)).2.session_peers.length := by
  have h := peerset_length_invariant [pidA] pidA [] (Peerset.new [pidB, pidC] pidB) cacheABC
  exact ⟨h.1, h.2.2.2.mpr (by decide)⟩

/-! ## Claims about the discovery engine -/

/-- A Kademlia sub-engine with a pending dial action, for witnesses. -/
def kadDemo : KadState :=
  { book := [(pidB, 7)], pollQueue := [KadPollItem.DialPeer pidC], bootstrapResult := .ok 0 }

/-- An mDNS sub-engine with a discovered address for `pidB`. -/
def mdnsDemo : MdnsState :=
  { book := [(pidB, 8)], pollQueue := [MdnsPollItem.ReportObservedAddr 9] }

/-- A discovery state whose sub-engines both have pending work. -/
def dDemo : DiscoveryBehaviour :=
  { user_defined := [(pidB, 7)]
    kademlia := some kadDemo
    mdns := some mdnsDemo
    pending_events := []
    num_connections := 0
    peers := [pidB]
    peer_addresses := [] }

/-- C6: whenever `pending_events` is non-empty, a single `poll` returns its
front event (FIFO) before any sub-engine action; a connect callback on a
state with no pending events followed by `poll` yields `Connected` for
that peer. -/
theorem poll_pending_events_first (d : DiscoveryBehaviour) (x : PeerId) :
    (∀ ev restEvents, d.pending_events = ev :: restEvents →
      (d.poll).1 = some (.GenerateEvent ev) ∧
      (d.poll).2.pending_events = restEvents ∧
      (d.poll).2.kadQueue = d.kadQueue ∧
      (d.poll).2.mdnsQueue = d.mdnsQueue) ∧
    (d.pending_events = [] →
      ((d.inject_connected x).poll).1
        = some (.GenerateEvent (.Connected x))) := by
  constructor
  · intro ev restEvents hE
    rw [DiscoveryBehaviour.poll, hE]
    exact ⟨rfl, rfl, rfl, rfl⟩
  · intro hE
    rw [DiscoveryBehaviour.poll]
    show (match (d.pending_events ++ [DiscoveryOut.Connected x] : List DiscoveryOut) with
      | ev :: restEvents => _
      | [] => _ : Option NBAction × DiscoveryBehaviour).1 = _
    rw [hE]
    rfl

/-- Witness for C6: connect `pidA` on `dDemo` (whose Kademlia and mDNS
queues both hold pending actions); the next poll yields `Connected pidA`,
not a sub-engine action. -/
theorem poll_pending_events_first_witness :
    ((dDemo.inject_connected pidA).poll).1
      = some (.GenerateEvent (.Connected pidA)) :=
  (poll_pending_events_first dDemo pidA).2 rfl

/-- C7 counterexample: the peer-level disconnect callback does not remove
the identity from `peers` (still present after connect-then-disconnect),
and with Kademlia enabled the set is non-empty before any lifecycle
callback (it is seeded with the user-defined bootstrap peers). -/
theorem connected_peers_counterexample :
    pidA ∈ (((DiscoveryBehaviour.new [] false false (.error "e")).inject_connected
        pidA).inject_disconnected pidA).peers ∧
    (DiscoveryBehaviour.new [(pidA, 5)] true false (.ok 0)).peers = [pidA] := by
  decide

set_option maxRecDepth 4000 in
/-- C7 (amended): the connect callback records addresses and adds the
identity to `peers`; the disconnect callback only enqueues `Disconnected`,
leaving `peers` and `peer_addresses` unchanged (the set is add-only);
physical established/closed callbacks leave `peers`, `peer_addresses` and
`pending_events` unchanged and only step the `u64` connection counter; at
construction the set is empty unless Kademlia is enabled, in which case it
holds exactly the user-defined bootstrap peers. -/
theorem connected_peers_tracking (d : DiscoveryBehaviour) (x : PeerId)
    (ud : List (PeerId × Multiaddr)) (mdnsOn : Bool) (kbr : Except String Nat) :
    ((d.inject_connected x).peers = hsetInsert d.peers x ∧
      x ∈ (d.inject_connected x).peers ∧
      (d.inject_connected x).peer_addresses
        = hmapInsert d.peer_addresses x (d.addresses_of_peer x) ∧
      (d.inject_connected x).num_connections = d.num_connections) ∧
    ((d.inject_disconnected x).peers = d.peers ∧
      (d.inject_disconnected x).peer_addresses = d.peer_addresses ∧
      (d.inject_disconnected x).pending_events
        = d.pending_events ++ [DiscoveryOut.Disconnected x] ∧
      (d.inject_disconnected x).num_connections = d.num_connections) ∧
    (d.inject_connection_established.peers = d.peers ∧
      d.inject_connection_established.peer_addresses = d.peer_addresses ∧
      d.inject_connection_established.pending_events = d.pending_events ∧
      d.inject_connection_established.num_connections
        = (d.num_connections + 1) % u64Size) ∧
    (d.inject_connection_closed.peers = d.peers ∧
      d.inject_connection_closed.peer_addresses = d.peer_addresses ∧
      d.inject_connection_closed.pending_events = d.pending_events ∧
      d.inject_connection_closed.num_connections
        = (d.num_connections + (u64Size - 1)) % u64Size) ∧
    ((DiscoveryBehaviour.new ud false mdnsOn kbr).peers = [] ∧
      (DiscoveryBehaviour.new ud true mdnsOn kbr).peers
        = (ud.map Prod.fst).foldl hsetInsert []) :=
  by
  refine ⟨?_, ?_, ?_, ?_, ?_⟩
  · refine ⟨rfl, ?_, rfl, rfl⟩
    simp only [DiscoveryBehaviour.inject_connected]
    exact mem_hsetInsert_self d.peers x
  · exact ⟨rfl, rfl, rfl, rfl⟩
  · refine ⟨?_, ?_, ?_, ?_⟩ <;>
      rw [DiscoveryBehaviour.inject_connection_established]
  · refine ⟨?_, ?_, ?_, ?_⟩ <;>
      rw [DiscoveryBehaviour.inject_connection_closed]
  · exact ⟨rfl, rfl⟩

/-- C8: `addresses_of_peer` concatenates, in priority order, the
user-defined addresses of the peer (in list order), the Kademlia book's
addresses, and the mDNS book's addresses; a disabled sub-engine
contributes nothing. -/
theorem addresses_of_peer_priority (d : DiscoveryBehaviour) (q : PeerId) :
    (∀ k m, d.kademlia = some k → d.mdns = some m →
      d.addresses_of_peer q
        = addressBookLookup d.user_defined q
            ++ addressBookLookup k.book q ++ addressBookLookup m.book q) ∧
    (∀ k, d.kademlia = some k → d.mdns = none →
      d.addresses_of_peer q
        = addressBookLookup d.user_defined q ++ addressBookLookup k.book q) ∧
    (∀ m, d.kademlia = none → d.mdns = some m →
      d.addresses_of_peer q
        = addressBookLookup d.user_defined q ++ addressBookLookup m.book q) ∧
    (d.kademlia = none → d.mdns = none →
      d.addresses_of_peer q = addressBookLookup d.user_defined q) := by
  refine ⟨?_, ?_, ?_, ?_⟩ <;>
    first
      | (intro k m hk hm
         simp [DiscoveryBehaviour.addresses_of_peer, hk, hm])
      | (intro k hk hm
         simp [DiscoveryBehaviour.addresses_of_peer, hk, hm])
      | (intro hk hm
         simp [DiscoveryBehaviour.addresses_of_peer, hk, hm])

/-- Witness for C8 at `dDemo`, whose sub-engines are both enabled. -/
theorem addresses_of_peer_priority_witness :
    dDemo.addresses_of_peer pidB
      = addressBookLookup dDemo.user_defined pidB
          ++ addressBookLookup kadDemo.book pidB ++ addressBookLookup mdnsDemo.book pidB :=
  (addresses_of_peer_priority dDemo pidB).1 kadDemo mdnsDemo rfl rfl

/-- A discovery state with the Kademlia sub-engine disabled. -/
def dNoKad : DiscoveryBehaviour := DiscoveryBehaviour.new [] false false (.error "unused")

/-- C9: `bootstrap` fails with the configuration error exactly when the
Kademlia sub-engine is disabled; when enabled it returns the sub-engine's
own result (its failure mapped to an error string), so the call succeeds
iff Kademlia is enabled and its own bootstrap succeeded.  The error is an
ordinary return value, not a panic. -/
theorem bootstrap_error_iff (d : DiscoveryBehaviour) :
    (d.kademlia = none → d.bootstrap = .error "Kademlia is not activated") ∧
    (∀ k, d.kademlia = some k → d.bootstrap = k.bootstrapResult) ∧
    ((∃ qid, d.bootstrap = .ok qid)
      ↔ ∃ k qid, d.kademlia = some k ∧ k.bootstrapResult = .ok qid) := by
  refine ⟨?_, ?_, ?_⟩
  · intro h
    simp [DiscoveryBehaviour.bootstrap, h]
  · intro k h
    simp [DiscoveryBehaviour.bootstrap, h]
  · cases h : d.kademlia with
    | none =>
      simp [DiscoveryBehaviour.bootstrap, h]
    | some k =>
      simp [DiscoveryBehaviour.bootstrap, h]

/-- Witness for C9: the disabled state yields the configuration error, the
enabled demo state delegates to its sub-engine. -/
theorem bootstrap_error_iff_witness :
    dNoKad.bootstrap = .error "Kademlia is not activated" ∧
    dDemo.bootstrap = kadDemo.bootstrapResult :=
  ⟨(bootstrap_error_iff dNoKad).1 rfl, (bootstrap_error_iff dDemo).2.1 kadDemo rfl⟩
